import Mathlib

/-!
Verification of the gls repository (a GitLab-to-local sync tool) against its
natural-language specification.

The development shallowly embeds the Go source:
* the reconciler (pairProjects / createTasks, src/unnamed/part_002 and
  src/cmd/main.go) as pure list functions;
* the bounded worker pool (RunTasks, src/pkg/gls/task.go) as a small-step
  state machine over pool states;
* the concurrent remote tree walker (GetActiveGitlabProjects /
  listProjectsRecursively, src/pkg/gitlab/gitlab.go) as a recursion over a
  group tree carrying per-request failure-injection flags;
* the local scanner (GetLocalProjects, src/pkg/git/git.go) as a recursion
  over a directory tree;
* DeleteProject (src/pkg/git/git.go) over an abstract path-set filesystem.
-/

namespace Gls

/-- Action of a task, src/pkg/gls/task.go (type Action; Clone / Pull / Delete). -/
inductive Action where
  | Clone
  | Pull
  | Delete
deriving DecidableEq, Repr

/-- Status of a task, src/pkg/gls/task.go (type Status; Open / Progressing / Completed). -/
inductive Status where
  | Open
  | Progressing
  | Completed
deriving DecidableEq, Repr

/-- gitlab.Project (src/pkg/gitlab/gitlab.go type Project): the filtered,
path-stripped project descriptor produced by GetActiveGitlabProjects. -/
structure GitlabProject where
  path : String
  defaultBranch : String
  cloneUrl : String
deriving DecidableEq, Repr

/-- git.Project (src/pkg/git/git.go type Project): a local working copy with
its path relative to the scan root and its checked-out branch. -/
structure LocalProject where
  path : String
  branch : String
deriving DecidableEq, Repr

/-- gls.ProjectPair (src/pkg/gls/task.go): optional remote and local sides,
keyed by logical path.  Go nil pointers become Option.none. -/
structure ProjectPair where
  gitlabProject : Option GitlabProject
  localProject : Option LocalProject
deriving DecidableEq, Repr

/-- gls.Task as created by createTasks in src/unnamed/part_002 (NewTask plus
the SetMessage calls on the pre-skipped branches).  The mutable atomic fields
are captured at creation time; the error field starts nil and is not part of
task creation. -/
structure Task where
  path : String
  localPath : String
  branch : String
  action : Action
  status : Status
  message : String
deriving DecidableEq, Repr

/-!
pairProjects (src/unnamed/part_002 lines 198-220, identical in
src/cmd/main.go lines 329-351) builds a Go map from logical path to
ProjectPair: for each gitlab project it fetches-or-creates the entry for
project.Path and sets its GitlabProject side, then does the same for the
local projects on the LocalProject side.  We model the map as an association
list in first-insertion order; Go map iteration order is unspecified, and no
claim below depends on the order, only on the key set and the per-key values.
-/

/-- One step of the first loop of pairProjects: insert-or-update the entry
for a gitlab project under key project.Path. -/
def upsertGitlab : List (String × ProjectPair) → GitlabProject → List (String × ProjectPair)
  | [], p => [(p.path, ⟨some p, none⟩)]
  | (k, pr) :: rest, p =>
      if k = p.path then (k, { pr with gitlabProject := some p }) :: rest
      else (k, pr) :: upsertGitlab rest p

/-- One step of the second loop of pairProjects: insert-or-update the entry
for a local project under key project.Path. -/
def upsertLocal : List (String × ProjectPair) → LocalProject → List (String × ProjectPair)
  | [], p => [(p.path, ⟨none, some p⟩)]
  | (k, pr) :: rest, p =>
      if k = p.path then (k, { pr with localProject := some p }) :: rest
      else (k, pr) :: upsertLocal rest p

/-- pairProjects: full outer join of the two descriptor lists keyed on
logical path (src/unnamed/part_002 lines 198-220). -/
def pairProjects (gitlabProjects : List GitlabProject) (localProjects : List LocalProject) :
    List (String × ProjectPair) :=
  localProjects.foldl upsertLocal (gitlabProjects.foldl upsertGitlab [])

/-- The per-entry decision of createTasks (src/unnamed/part_002 lines
147-192): derive the task for one join entry.  The confirmation collaborator
is the askForConfirmation prompt of src/cmd/main.go line 261; in
src/unnamed/part_002 line 178 it is stubbed to always answer true, with both
branches present in the source.  A pair with neither side present never
occurs in a pairProjects entry; Go would append a nil task pointer, which we
render as none. -/
def mkTask (confirm : String → Bool) (localRoot : String) (key : String)
    (pr : ProjectPair) : Option Task :=
  match pr.gitlabProject, pr.localProject with
  | some gp, some lp =>
      -- we have a remote and local copy, only need to pull
      if gp.defaultBranch = lp.branch then
        some ⟨key, localRoot ++ "/" ++ lp.path, lp.branch, .Pull, .Open, ""⟩
      else
        some ⟨key, localRoot ++ "/" ++ lp.path, lp.branch, .Pull, .Completed,
          "Skipped, non default branch"⟩
  | some gp, none =>
      -- we don't have a local copy, so we clone
      some ⟨key, localRoot ++ "/" ++ gp.path, gp.defaultBranch, .Clone, .Open, ""⟩
  | none, some lp =>
      -- we only have a local copy, ask if we should delete it
      if confirm key then
        some ⟨key, localRoot ++ "/" ++ lp.path, lp.branch, .Delete, .Open, ""⟩
      else
        some ⟨key, localRoot ++ "/" ++ lp.path, lp.branch, .Delete, .Completed,
          "Skipped, requested by user"⟩
  | none, none => none

/-- createTasks (src/unnamed/part_002 lines 143-196): one task appended per
entry of the pairProjects join. -/
def createTasks (confirm : String → Bool) (gitlabProjects : List GitlabProject)
    (localProjects : List LocalProject) (localRoot : String) : List (Option Task) :=
  (pairProjects gitlabProjects localProjects).map fun e => mkTask confirm localRoot e.1 e.2

/-! Key-set lemmas for the join. -/

lemma keys_upsertGitlab_toFinset (m : List (String × ProjectPair)) (p : GitlabProject) :
    ((upsertGitlab m p).map Prod.fst).toFinset = insert p.path (m.map Prod.fst).toFinset := by
  induction m with
  | nil => simp [upsertGitlab]
  | cons e rest ih =>
      obtain ⟨k, pr⟩ := e
      by_cases hk : k = p.path
      · subst hk
        simp [upsertGitlab]
      · simp only [upsertGitlab, if_neg hk, List.map_cons, List.toFinset_cons, ih]
        rw [Finset.Insert.comm]

lemma keys_upsertLocal_toFinset (m : List (String × ProjectPair)) (p : LocalProject) :
    ((upsertLocal m p).map Prod.fst).toFinset = insert p.path (m.map Prod.fst).toFinset := by
  induction m with
  | nil => simp [upsertLocal]
  | cons e rest ih =>
      obtain ⟨k, pr⟩ := e
      by_cases hk : k = p.path
      · subst hk
        simp [upsertLocal]
      · simp only [upsertLocal, if_neg hk, List.map_cons, List.toFinset_cons, ih]
        rw [Finset.Insert.comm]

lemma keys_upsertGitlab_nodup (m : List (String × ProjectPair)) (p : GitlabProject)
    (h : (m.map Prod.fst).Nodup) : ((upsertGitlab m p).map Prod.fst).Nodup := by
  induction m with
  | nil => simp [upsertGitlab]
  | cons e rest ih =>
      obtain ⟨k, pr⟩ := e
      simp only [List.map_cons, List.nodup_cons] at h
      by_cases hk : k = p.path
      · subst hk
        simpa [upsertGitlab] using h
      · simp only [upsertGitlab, if_neg hk, List.map_cons, List.nodup_cons]
        refine ⟨?_, ih h.2⟩
        intro hmem
        rw [← List.mem_toFinset, keys_upsertGitlab_toFinset, Finset.mem_insert,
          List.mem_toFinset] at hmem
        rcases hmem with hmem | hmem
        · exact hk hmem
        · exact h.1 hmem

lemma keys_upsertLocal_nodup (m : List (String × ProjectPair)) (p : LocalProject)
    (h : (m.map Prod.fst).Nodup) : ((upsertLocal m p).map Prod.fst).Nodup := by
  induction m with
  | nil => simp [upsertLocal]
  | cons e rest ih =>
      obtain ⟨k, pr⟩ := e
      simp only [List.map_cons, List.nodup_cons] at h
      by_cases hk : k = p.path
      · subst hk
        simpa [upsertLocal] using h
      · simp only [upsertLocal, if_neg hk, List.map_cons, List.nodup_cons]
        refine ⟨?_, ih h.2⟩
        intro hmem
        rw [← List.mem_toFinset, keys_upsertLocal_toFinset, Finset.mem_insert,
          List.mem_toFinset] at hmem
        rcases hmem with hmem | hmem
        · exact hk hmem
        · exact h.1 hmem

lemma keys_foldl_upsertGitlab_toFinset (g : List GitlabProject) :
    ∀ m : List (String × ProjectPair),
      ((g.foldl upsertGitlab m).map Prod.fst).toFinset =
        (m.map Prod.fst).toFinset ∪ (g.map GitlabProject.path).toFinset := by
  induction g with
  | nil => intro m; simp
  | cons p g' ih =>
      intro m
      simp only [List.foldl_cons, ih, keys_upsertGitlab_toFinset, List.map_cons,
        List.toFinset_cons, Finset.insert_union, Finset.union_insert]

lemma keys_foldl_upsertLocal_toFinset (l : List LocalProject) :
    ∀ m : List (String × ProjectPair),
      ((l.foldl upsertLocal m).map Prod.fst).toFinset =
        (m.map Prod.fst).toFinset ∪ (l.map LocalProject.path).toFinset := by
  induction l with
  | nil => intro m; simp
  | cons p l' ih =>
      intro m
      simp only [List.foldl_cons, ih, keys_upsertLocal_toFinset, List.map_cons,
        List.toFinset_cons, Finset.insert_union, Finset.union_insert]

lemma keys_foldl_upsertGitlab_nodup (g : List GitlabProject) :
    ∀ m : List (String × ProjectPair), (m.map Prod.fst).Nodup →
      ((g.foldl upsertGitlab m).map Prod.fst).Nodup := by
  induction g with
  | nil => intro m hm; simpa using hm
  | cons p g' ih =>
      intro m hm
      exact ih _ (keys_upsertGitlab_nodup m p hm)

lemma keys_foldl_upsertLocal_nodup (l : List LocalProject) :
    ∀ m : List (String × ProjectPair), (m.map Prod.fst).Nodup →
      ((l.foldl upsertLocal m).map Prod.fst).Nodup := by
  induction l with
  | nil => intro m hm; simpa using hm
  | cons p l' ih =>
      intro m hm
      exact ih _ (keys_upsertLocal_nodup m p hm)

/-- Key set of the join: the distinct logical paths of the union. -/
lemma pairProjects_keys_toFinset (g : List GitlabProject) (l : List LocalProject) :
    ((pairProjects g l).map Prod.fst).toFinset =
      (g.map GitlabProject.path ++ l.map LocalProject.path).toFinset := by
  simp only [pairProjects, keys_foldl_upsertLocal_toFinset, keys_foldl_upsertGitlab_toFinset,
    List.toFinset_append]
  simp

/-- The join never maps two entries to one logical path. -/
lemma pairProjects_keys_nodup (g : List GitlabProject) (l : List LocalProject) :
    ((pairProjects g l).map Prod.fst).Nodup := by
  refine keys_foldl_upsertLocal_nodup l _ (keys_foldl_upsertGitlab_nodup g [] ?_)
  simp

/-- C3: the Reconciler produces exactly one task per distinct logical path of
the union of the remote and local descriptor lists: the number of tasks
equals the number of distinct logical-path keys, and the join assigns each
path at most one entry (no duplicates, no omissions). -/
theorem createTasks_count (confirm : String → Bool) (localRoot : String)
    (g : List GitlabProject) (l : List LocalProject) :
    (createTasks confirm g l localRoot).length =
        (g.map GitlabProject.path ++ l.map LocalProject.path).toFinset.card ∧
      ((pairProjects g l).map Prod.fst).Nodup := by
  constructor
  · have hnd := pairProjects_keys_nodup g l
    calc (createTasks confirm g l localRoot).length
        = (pairProjects g l).length := by simp [createTasks]
      _ = ((pairProjects g l).map Prod.fst).length := by simp
      _ = ((pairProjects g l).map Prod.fst).toFinset.card :=
          (List.toFinset_card_of_nodup hnd).symm
      _ = (g.map GitlabProject.path ++ l.map LocalProject.path).toFinset.card := by
          rw [pairProjects_keys_toFinset]
  · exact pairProjects_keys_nodup g l

/-- C1: the decision table of the Reconciler (createTasks, src/unnamed/part_002
lines 143-196).  Both sides present with equal branches: Pull and Open; both
present with differing branches: Pull, Completed, skip message; remote only:
Clone and Open; local only: Delete, with Open when the confirmation
collaborator accepts and Completed plus a skip message when it declines. -/
theorem createTasks_decision_table (confirm : String → Bool) (localRoot key : String) :
    (∀ gp lp : _, gp.defaultBranch = lp.branch →
        mkTask confirm localRoot key ⟨some gp, some lp⟩ =
          some ⟨key, localRoot ++ "/" ++ lp.path, lp.branch, .Pull, .Open, ""⟩) ∧
    (∀ gp lp : _, gp.defaultBranch ≠ lp.branch →
        mkTask confirm localRoot key ⟨some gp, some lp⟩ =
          some ⟨key, localRoot ++ "/" ++ lp.path, lp.branch, .Pull, .Completed,
            "Skipped, non default branch"⟩) ∧
    (∀ gp : GitlabProject,
        mkTask confirm localRoot key ⟨some gp, none⟩ =
          some ⟨key, localRoot ++ "/" ++ gp.path, gp.defaultBranch, .Clone, .Open, ""⟩) ∧
    (∀ lp : LocalProject, confirm key = true →
        mkTask confirm localRoot key ⟨none, some lp⟩ =
          some ⟨key, localRoot ++ "/" ++ lp.path, lp.branch, .Delete, .Open, ""⟩) ∧
    (∀ lp : LocalProject, confirm key = false →
        mkTask confirm localRoot key ⟨none, some lp⟩ =
          some ⟨key, localRoot ++ "/" ++ lp.path, lp.branch, .Delete, .Completed,
            "Skipped, requested by user"⟩) := by
  refine ⟨?_, ?_, ?_, ?_, ?_⟩
  · intro gp lp h
    simp [mkTask, h]
  · intro gp lp h
    simp [mkTask, h]
  · intro gp
    simp [mkTask]
  · intro lp h
    simp [mkTask, h]
  · intro lp h
    simp [mkTask, h]

/-- Witness for C1: the decision table evaluated on concrete projects, one
instance per row. -/
theorem createTasks_decision_table_witness :
    mkTask (fun _ => true) "/r" "a" ⟨some ⟨"a", "main", "u"⟩, some ⟨"a", "main"⟩⟩ =
        some ⟨"a", "/r/a", "main", .Pull, .Open, ""⟩ ∧
      mkTask (fun _ => true) "/r" "a" ⟨some ⟨"a", "main", "u"⟩, some ⟨"a", "hotfix"⟩⟩ =
        some ⟨"a", "/r/a", "hotfix", .Pull, .Completed, "Skipped, non default branch"⟩ ∧
      mkTask (fun _ => true) "/r" "a" ⟨some ⟨"a", "main", "u"⟩, none⟩ =
        some ⟨"a", "/r/a", "main", .Clone, .Open, ""⟩ ∧
      mkTask (fun _ => true) "/r" "a" ⟨none, some ⟨"a", "main"⟩⟩ =
        some ⟨"a", "/r/a", "main", .Delete, .Open, ""⟩ ∧
      mkTask (fun _ => false) "/r" "a" ⟨none, some ⟨"a", "main"⟩⟩ =
        some ⟨"a", "/r/a", "main", .Delete, .Completed, "Skipped, requested by user"⟩ := by
  refine ⟨?_, ?_, ?_, ?_, ?_⟩
  · exact (createTasks_decision_table (fun _ => true) "/r" "a").1 ⟨"a", "main", "u"⟩
      ⟨"a", "main"⟩ rfl
  · exact (createTasks_decision_table (fun _ => true) "/r" "a").2.1 ⟨"a", "main", "u"⟩
      ⟨"a", "hotfix"⟩ (by decide)
  · exact (createTasks_decision_table (fun _ => true) "/r" "a").2.2.1 ⟨"a", "main", "u"⟩
  · exact (createTasks_decision_table (fun _ => true) "/r" "a").2.2.2.1 ⟨"a", "main"⟩ rfl
  · exact (createTasks_decision_table (fun _ => false) "/r" "a").2.2.2.2 ⟨"a", "main"⟩ rfl

/-!
The Scheduler: RunTasks (src/pkg/gls/task.go lines 88-109).

RunTasks pre-loads a buffered channel with all tasks of its list, closes it,
and starts numWorkers goroutines; each goroutine repeatedly dequeues a task,
sets its status to Progressing, runs the work function, stores the returned
error, sets the status to Completed, and exits once the closed channel is
drained.  We embed this as a small-step relation over pool states: tasks are
indices into the list (Fin n), the work function is a pure result per task
(wf : Fin n -> Option E), and each atomic operation of a worker's loop body
is one step.  The buffered channel never blocks the single producer, so the
pre-loaded queue is faithful to the dequeue orders workers can observe.
-/

/-- Program point of one worker goroutine inside the loop body of RunTasks:
idle (about to receive from the channel), handling t (received t, before
SetStatus(Progressing)), working t (after SetStatus(Progressing), before the
work call returns), finishing t (after SetError(work(task)), before
SetStatus(Completed)), done (the range loop ended on the closed channel). -/
inductive WStat (n : Nat) where
  | idle
  | handling (t : Fin n)
  | working (t : Fin n)
  | finishing (t : Fin n)
  | done
deriving DecidableEq, Repr

/-- State of the worker pool: the remaining queue, the program point of each
of the W workers, and each task's observable status, stored error and number
of work-function invocations so far. -/
structure Pool (n W : Nat) (E : Type) where
  queue : List (Fin n)
  workers : Fin W → WStat n
  status : Fin n → Status
  taskErr : Fin n → Option E
  runs : Fin n → Nat
deriving DecidableEq

/-- Worker w currently holds task t (is somewhere in the loop body for t). -/
def HoldsW {n W : Nat} (g : Fin W → WStat n) (w : Fin W) (t : Fin n) : Prop :=
  g w = .handling t ∨ g w = .working t ∨ g w = .finishing t

/-- One atomic step of RunTasks (src/pkg/gls/task.go lines 93-100): a worker
dequeues, sets Progressing, runs the work function and stores its error,
sets Completed, or terminates on the drained closed channel. -/
inductive Step {n W : Nat} {E : Type} (wf : Fin n → Option E) :
    Pool n W E → Pool n W E → Prop where
  | dequeue (s : Pool n W E) (w : Fin W) (t : Fin n) (rest : List (Fin n))
      (hw : s.workers w = .idle) (hq : s.queue = t :: rest) :
      Step wf s { s with queue := rest,
                         workers := Function.update s.workers w (.handling t) }
  | start (s : Pool n W E) (w : Fin W) (t : Fin n)
      (hw : s.workers w = .handling t) :
      Step wf s { s with workers := Function.update s.workers w (.working t),
                         status := Function.update s.status t .Progressing }
  | run (s : Pool n W E) (w : Fin W) (t : Fin n)
      (hw : s.workers w = .working t) :
      Step wf s { s with workers := Function.update s.workers w (.finishing t),
                         taskErr := Function.update s.taskErr t (wf t),
                         runs := Function.update s.runs t (s.runs t + 1) }
  | finish (s : Pool n W E) (w : Fin W) (t : Fin n)
      (hw : s.workers w = .finishing t) :
      Step wf s { s with workers := Function.update s.workers w .idle,
                         status := Function.update s.status t .Completed }
  | exit (s : Pool n W E) (w : Fin W)
      (hw : s.workers w = .idle) (hq : s.queue = []) :
      Step wf s { s with workers := Function.update s.workers w .done }

/-- Initial pool state: the queue pre-loaded with every task of the list (in
list order), all workers idle, every task Open with no stored error and no
invocations.  RunTasks is called on the Open subset of the task list. -/
def initPool (n W : Nat) (E : Type) : Pool n W E :=
  ⟨List.finRange n, fun _ => .idle, fun _ => .Open, fun _ => none, fun _ => 0⟩

/-- States of RunTasks reachable from the initial state. -/
def Reachable {n W : Nat} {E : Type} (wf : Fin n → Option E) (s : Pool n W E) : Prop :=
  Relation.ReflTransGen (Step wf) (initPool n W E) s

lemma holdsW_unique_right {n W : Nat} {g : Fin W → WStat n} {w : Fin W} {t t' : Fin n}
    (h1 : HoldsW g w t) (h2 : HoldsW g w t') : t = t' := by
  rcases h1 with h1 | h1 | h1 <;> rcases h2 with h2 | h2 | h2 <;>
    rw [h1] at h2 <;> simp_all

lemma holdsW_update_self {n W : Nat} {g : Fin W → WStat n} {w : Fin W} {x : WStat n}
    {t : Fin n} :
    HoldsW (Function.update g w x) w t ↔
      (x = .handling t ∨ x = .working t ∨ x = .finishing t) := by
  simp [HoldsW, Function.update_same]

lemma holdsW_update_other {n W : Nat} {g : Fin W → WStat n} {w u : Fin W} {x : WStat n}
    (h : u ≠ w) {t : Fin n} :
    HoldsW (Function.update g w x) u t ↔ HoldsW g u t := by
  simp [HoldsW, Function.update_noteq h]

lemma exists_eq_update_iff {n W : Nat} {g : Fin W → WStat n} {w : Fin W}
    {x y : WStat n} (hx : x ≠ y) (hw : g w ≠ y) :
    (∃ u, Function.update g w x u = y) ↔ (∃ u, g u = y) := by
  constructor
  · rintro ⟨u, hu⟩
    by_cases h : u = w
    · subst h
      rw [Function.update_same] at hu
      exact absurd hu hx
    · rw [Function.update_noteq h] at hu
      exact ⟨u, hu⟩
  · rintro ⟨u, hu⟩
    by_cases h : u = w
    · subst h
      exact absurd hu hw
    · exact ⟨u, by rw [Function.update_noteq h]; exact hu⟩

/-- The per-task invariant of RunTasks: at every moment a task is in exactly
one of five phases, with status, invocation count and stored error fixed by
the phase: queued, received, progressing before the work call returned,
progressing with the work result stored, or completed. -/
def TaskInv {n W : Nat} {E : Type} (wf : Fin n → Option E) (s : Pool n W E)
    (t : Fin n) : Prop :=
  (t ∈ s.queue ∧ s.status t = .Open ∧ s.runs t = 0 ∧ ∀ u, ¬ HoldsW s.workers u t)
  ∨ (t ∉ s.queue ∧ s.status t = .Open ∧ s.runs t = 0 ∧ ∃ u, s.workers u = .handling t)
  ∨ (t ∉ s.queue ∧ s.status t = .Progressing ∧ s.runs t = 0 ∧
      ∃ u, s.workers u = .working t)
  ∨ (t ∉ s.queue ∧ s.status t = .Progressing ∧ s.runs t = 1 ∧ s.taskErr t = wf t ∧
      ∃ u, s.workers u = .finishing t)
  ∨ (t ∉ s.queue ∧ s.status t = .Completed ∧ s.runs t = 1 ∧ s.taskErr t = wf t ∧
      ∀ u, ¬ HoldsW s.workers u t)

/-- Global invariant of RunTasks: the queue has no duplicates, a terminated
worker implies a drained queue, no two workers hold the same task, and every
task satisfies its per-task phase invariant. -/
def Inv {n W : Nat} {E : Type} (wf : Fin n → Option E) (s : Pool n W E) : Prop :=
  s.queue.Nodup ∧
  ((∃ u, s.workers u = .done) → s.queue = []) ∧
  (∀ u u' t, HoldsW s.workers u t → HoldsW s.workers u' t → u = u') ∧
  ∀ t, TaskInv wf s t

lemma forall_not_holdsW {n W : Nat} (g : Fin W → WStat n) (t : Fin n) :
    (∀ u, ¬ HoldsW g u t) ↔
      ¬(∃ u, g u = .handling t) ∧ ¬(∃ u, g u = .working t) ∧
        ¬(∃ u, g u = .finishing t) := by
  simp only [HoldsW, not_or, forall_and, not_exists]

/-- Transfer of the per-task invariant between states that agree on every
observation about task t. -/
lemma taskInv_of_agree {n W : Nat} {E : Type} {wf : Fin n → Option E}
    {s s' : Pool n W E} {t : Fin n} (h : TaskInv wf s t)
    (hqm : t ∈ s'.queue ↔ t ∈ s.queue)
    (hst : s'.status t = s.status t)
    (hrn : s'.runs t = s.runs t)
    (her : s'.taskErr t = s.taskErr t)
    (hhand : (∃ u, s'.workers u = .handling t) ↔ (∃ u, s.workers u = .handling t))
    (hwork : (∃ u, s'.workers u = .working t) ↔ (∃ u, s.workers u = .working t))
    (hfin : (∃ u, s'.workers u = .finishing t) ↔ (∃ u, s.workers u = .finishing t)) :
    TaskInv wf s' t := by
  unfold TaskInv at h ⊢
  simp only [forall_not_holdsW] at h ⊢
  rw [hqm, hst, hrn, her, hhand, hwork, hfin]
  exact h

/-- Every step of RunTasks preserves the global invariant. -/
lemma inv_step {n W : Nat} {E : Type} {wf : Fin n → Option E} {s s' : Pool n W E}
    (hs : Inv wf s) (hstep : Step wf s s') : Inv wf s' := by
  obtain ⟨hnd, hdone, hinj, htask⟩ := hs
  cases hstep with
  | dequeue w t rest hw hq =>
      have hqnd : (t :: rest).Nodup := hq ▸ hnd
      have htr : t ∉ rest := (List.nodup_cons.mp hqnd).1
      have hrnd : rest.Nodup := (List.nodup_cons.mp hqnd).2
      have htin : t ∈ s.queue := by rw [hq]; exact List.mem_cons_self t rest
      have ht1 : s.status t = .Open ∧ s.runs t = 0 ∧ ∀ u, ¬ HoldsW s.workers u t := by
        rcases htask t with ⟨_, h2, h3, h4⟩ | ⟨h1, _⟩ | ⟨h1, _⟩ | ⟨h1, _⟩ | ⟨h1, _⟩
        · exact ⟨h2, h3, h4⟩
        all_goals exact absurd htin h1
      refine ⟨hrnd, ?_, ?_, ?_⟩
      · rintro ⟨u, hu⟩
        exfalso
        have hu' : Function.update s.workers w (.handling t) u = .done := hu
        by_cases huw : u = w
        · subst huw
          rw [Function.update_same] at hu'
          simp at hu'
        · rw [Function.update_noteq huw] at hu'
          have := hdone ⟨u, hu'⟩
          rw [hq] at this
          simp at this
      · intro u u' τ h1 h2
        have h1' : HoldsW (Function.update s.workers w (.handling t)) u τ := h1
        have h2' : HoldsW (Function.update s.workers w (.handling t)) u' τ := h2
        by_cases huw : u = w <;> by_cases huw' : u' = w
        · rw [huw, huw']
        · subst huw
          have hτt : τ = t := by
            rcases holdsW_update_self.mp h1' with h | h | h <;> simp_all
          subst hτt
          exact absurd ((holdsW_update_other huw').mp h2') (ht1.2.2 u')
        · subst huw'
          have hτt : τ = t := by
            rcases holdsW_update_self.mp h2' with h | h | h <;> simp_all
          subst hτt
          exact absurd ((holdsW_update_other huw).mp h1') (ht1.2.2 u)
        · exact hinj u u' τ ((holdsW_update_other huw).mp h1')
            ((holdsW_update_other huw').mp h2')
      · intro τ
        by_cases hτ : τ = t
        · subst hτ
          refine Or.inr (Or.inl ⟨htr, ht1.1, ht1.2.1, ⟨w, ?_⟩⟩)
          show Function.update s.workers w (.handling τ) w = .handling τ
          rw [Function.update_same]
        · refine taskInv_of_agree (htask τ) ?_ ?_ ?_ ?_ ?_ ?_ ?_
          · show τ ∈ rest ↔ τ ∈ s.queue
            constructor
            · intro h
              rw [hq]
              exact List.mem_cons_of_mem t h
            · intro h
              rw [hq] at h
              exact (List.mem_cons.mp h).resolve_left hτ
          · rfl
          · rfl
          · rfl
          · show (∃ u, Function.update s.workers w (.handling t) u = .handling τ) ↔
                ∃ u, s.workers u = .handling τ
            exact exists_eq_update_iff (fun h => hτ (WStat.handling.inj h).symm)
              (by rw [hw]; simp)
          · show (∃ u, Function.update s.workers w (.handling t) u = .working τ) ↔
                ∃ u, s.workers u = .working τ
            exact exists_eq_update_iff (by simp) (by rw [hw]; simp)
          · show (∃ u, Function.update s.workers w (.handling t) u = .finishing τ) ↔
                ∃ u, s.workers u = .finishing τ
            exact exists_eq_update_iff (by simp) (by rw [hw]; simp)
  | start w t hw =>
      have hwh : HoldsW s.workers w t := Or.inl hw
      have ht2 : t ∉ s.queue ∧ s.status t = .Open ∧ s.runs t = 0 := by
        rcases htask t with ⟨_, _, _, h4⟩ | ⟨h1, h2, h3, _⟩ | ⟨_, _, _, u, hu⟩ |
          ⟨_, _, _, _, u, hu⟩ | ⟨_, _, _, _, h5⟩
        · exact absurd hwh (h4 w)
        · exact ⟨h1, h2, h3⟩
        · have huweq := hinj u w t (Or.inr (Or.inl hu)) hwh
          subst huweq
          rw [hw] at hu
          simp at hu
        · have huweq := hinj u w t (Or.inr (Or.inr hu)) hwh
          subst huweq
          rw [hw] at hu
          simp at hu
        · exact absurd hwh (h5 w)
      have hiff : ∀ u τ,
          HoldsW (Function.update s.workers w (.working t)) u τ ↔ HoldsW s.workers u τ := by
        intro u τ
        by_cases huw : u = w
        · subst huw
          rw [holdsW_update_self]
          constructor
          · intro h
            rcases h with h | h | h
            · exact absurd h (by simp)
            · rw [WStat.working.injEq] at h
              subst h
              exact hwh
            · exact absurd h (by simp)
          · intro h
            have hτt : τ = t := holdsW_unique_right h hwh
            subst hτt
            exact Or.inr (Or.inl rfl)
        · exact holdsW_update_other huw
      refine ⟨hnd, ?_, ?_, ?_⟩
      · rintro ⟨u, hu⟩
        have hu' : Function.update s.workers w (.working t) u = .done := hu
        by_cases huw : u = w
        · subst huw
          rw [Function.update_same] at hu'
          simp at hu'
        · rw [Function.update_noteq huw] at hu'
          exact hdone ⟨u, hu'⟩
      · intro u u' τ h1 h2
        exact hinj u u' τ ((hiff u τ).mp h1) ((hiff u' τ).mp h2)
      · intro τ
        by_cases hτ : τ = t
        · subst hτ
          refine Or.inr (Or.inr (Or.inl ⟨ht2.1, ?_, ht2.2.2, ⟨w, ?_⟩⟩))
          · show Function.update s.status τ .Progressing τ = .Progressing
            rw [Function.update_same]
          · show Function.update s.workers w (.working τ) w = .working τ
            rw [Function.update_same]
        · refine taskInv_of_agree (htask τ) Iff.rfl ?_ ?_ ?_ ?_ ?_ ?_
          · exact Function.update_noteq hτ _ _
          · rfl
          · rfl
          · show (∃ u, Function.update s.workers w (.working t) u = .handling τ) ↔
                ∃ u, s.workers u = .handling τ
            exact exists_eq_update_iff (by simp)
              (by rw [hw]; exact fun h => hτ (WStat.handling.inj h).symm)
          · show (∃ u, Function.update s.workers w (.working t) u = .working τ) ↔
                ∃ u, s.workers u = .working τ
            exact exists_eq_update_iff (fun h => hτ (WStat.working.inj h).symm)
              (by rw [hw]; simp)
          · show (∃ u, Function.update s.workers w (.working t) u = .finishing τ) ↔
                ∃ u, s.workers u = .finishing τ
            exact exists_eq_update_iff (by simp) (by rw [hw]; simp)
  | run w t hw =>
      have hwh : HoldsW s.workers w t := Or.inr (Or.inl hw)
      have ht3 : t ∉ s.queue ∧ s.status t = .Progressing ∧ s.runs t = 0 := by
        rcases htask t with ⟨_, _, _, h4⟩ | ⟨_, _, _, u, hu⟩ | ⟨h1, h2, h3, _⟩ |
          ⟨_, _, _, _, u, hu⟩ | ⟨_, _, _, _, h5⟩
        · exact absurd hwh (h4 w)
        · have huweq := hinj u w t (Or.inl hu) hwh
          subst huweq
          rw [hw] at hu
          simp at hu
        · exact ⟨h1, h2, h3⟩
        · have huweq := hinj u w t (Or.inr (Or.inr hu)) hwh
          subst huweq
          rw [hw] at hu
          simp at hu
        · exact absurd hwh (h5 w)
      have hiff : ∀ u τ,
          HoldsW (Function.update s.workers w (.finishing t)) u τ ↔ HoldsW s.workers u τ := by
        intro u τ
        by_cases huw : u = w
        · subst huw
          rw [holdsW_update_self]
          constructor
          · intro h
            rcases h with h | h | h
            · exact absurd h (by simp)
            · exact absurd h (by simp)
            · rw [WStat.finishing.injEq] at h
              subst h
              exact hwh
          · intro h
            have hτt : τ = t := holdsW_unique_right h hwh
            subst hτt
            exact Or.inr (Or.inr rfl)
        · exact holdsW_update_other huw
      refine ⟨hnd, ?_, ?_, ?_⟩
      · rintro ⟨u, hu⟩
        have hu' : Function.update s.workers w (.finishing t) u = .done := hu
        by_cases huw : u = w
        · subst huw
          rw [Function.update_same] at hu'
          simp at hu'
        · rw [Function.update_noteq huw] at hu'
          exact hdone ⟨u, hu'⟩
      · intro u u' τ h1 h2
        exact hinj u u' τ ((hiff u τ).mp h1) ((hiff u' τ).mp h2)
      · intro τ
        by_cases hτ : τ = t
        · subst hτ
          refine Or.inr (Or.inr (Or.inr (Or.inl ⟨ht3.1, ht3.2.1, ?_, ?_, ⟨w, ?_⟩⟩)))
          · show Function.update s.runs τ (s.runs τ + 1) τ = 1
            rw [Function.update_same, ht3.2.2]
          · show Function.update s.taskErr τ (wf τ) τ = wf τ
            rw [Function.update_same]
          · show Function.update s.workers w (.finishing τ) w = .finishing τ
            rw [Function.update_same]
        · refine taskInv_of_agree (htask τ) Iff.rfl ?_ ?_ ?_ ?_ ?_ ?_
          · rfl
          · exact Function.update_noteq hτ _ _
          · exact Function.update_noteq hτ _ _
          · show (∃ u, Function.update s.workers w (.finishing t) u = .handling τ) ↔
                ∃ u, s.workers u = .handling τ
            exact exists_eq_update_iff (by simp) (by rw [hw]; simp)
          · show (∃ u, Function.update s.workers w (.finishing t) u = .working τ) ↔
                ∃ u, s.workers u = .working τ
            exact exists_eq_update_iff (by simp)
              (by rw [hw]; exact fun h => hτ (WStat.working.inj h).symm)
          · show (∃ u, Function.update s.workers w (.finishing t) u = .finishing τ) ↔
                ∃ u, s.workers u = .finishing τ
            exact exists_eq_update_iff (fun h => hτ (WStat.finishing.inj h).symm)
              (by rw [hw]; simp)
  | finish w t hw =>
      have hwh : HoldsW s.workers w t := Or.inr (Or.inr hw)
      have ht4 : t ∉ s.queue ∧ s.status t = .Progressing ∧ s.runs t = 1 ∧
          s.taskErr t = wf t := by
        rcases htask t with ⟨_, _, _, h4⟩ | ⟨_, _, _, u, hu⟩ | ⟨_, _, _, u, hu⟩ |
          ⟨h1, h2, h3, h3', _⟩ | ⟨_, _, _, _, h5⟩
        · exact absurd hwh (h4 w)
        · have huweq := hinj u w t (Or.inl hu) hwh
          subst huweq
          rw [hw] at hu
          simp at hu
        · have huweq := hinj u w t (Or.inr (Or.inl hu)) hwh
          subst huweq
          rw [hw] at hu
          simp at hu
        · exact ⟨h1, h2, h3, h3'⟩
        · exact absurd hwh (h5 w)
      refine ⟨hnd, ?_, ?_, ?_⟩
      · rintro ⟨u, hu⟩
        have hu' : Function.update s.workers w .idle u = .done := hu
        by_cases huw : u = w
        · subst huw
          rw [Function.update_same] at hu'
          simp at hu'
        · rw [Function.update_noteq huw] at hu'
          exact hdone ⟨u, hu'⟩
      · intro u u' τ h1 h2
        have h1' : HoldsW (Function.update s.workers w .idle) u τ := h1
        have h2' : HoldsW (Function.update s.workers w .idle) u' τ := h2
        by_cases huw : u = w
        · exfalso
          subst huw
          rcases holdsW_update_self.mp h1' with h | h | h <;> simp at h
        · by_cases huw' : u' = w
          · exfalso
            subst huw'
            rcases holdsW_update_self.mp h2' with h | h | h <;> simp at h
          · exact hinj u u' τ ((holdsW_update_other huw).mp h1')
              ((holdsW_update_other huw').mp h2')
      · intro τ
        by_cases hτ : τ = t
        · subst hτ
          refine Or.inr (Or.inr (Or.inr (Or.inr ⟨ht4.1, ?_, ht4.2.2.1, ht4.2.2.2, ?_⟩)))
          · show Function.update s.status τ .Completed τ = .Completed
            rw [Function.update_same]
          · intro u hh
            have hh' : HoldsW (Function.update s.workers w .idle) u τ := hh
            by_cases huw : u = w
            · subst huw
              rcases holdsW_update_self.mp hh' with h | h | h <;> simp at h
            · have := hinj u w τ ((holdsW_update_other huw).mp hh') hwh
              exact huw this
        · refine taskInv_of_agree (htask τ) Iff.rfl ?_ ?_ ?_ ?_ ?_ ?_
          · exact Function.update_noteq hτ _ _
          · rfl
          · rfl
          · show (∃ u, Function.update s.workers w .idle u = .handling τ) ↔
                ∃ u, s.workers u = .handling τ
            exact exists_eq_update_iff (by simp) (by rw [hw]; simp)
          · show (∃ u, Function.update s.workers w .idle u = .working τ) ↔
                ∃ u, s.workers u = .working τ
            exact exists_eq_update_iff (by simp) (by rw [hw]; simp)
          · show (∃ u, Function.update s.workers w .idle u = .finishing τ) ↔
                ∃ u, s.workers u = .finishing τ
            exact exists_eq_update_iff (by simp)
              (by rw [hw]; exact fun h => hτ (WStat.finishing.inj h).symm)
  | exit w hw hq =>
      have hiff : ∀ u τ,
          HoldsW (Function.update s.workers w .done) u τ ↔ HoldsW s.workers u τ := by
        intro u τ
        by_cases huw : u = w
        · subst huw
          rw [holdsW_update_self]
          constructor
          · intro h
            rcases h with h | h | h <;> simp at h
          · intro h
            exfalso
            rcases h with h | h | h <;> rw [hw] at h <;> simp at h
        · exact holdsW_update_other huw
      refine ⟨hnd, fun _ => hq, ?_, ?_⟩
      · intro u u' τ h1 h2
        exact hinj u u' τ ((hiff u τ).mp h1) ((hiff u' τ).mp h2)
      · intro τ
        refine taskInv_of_agree (htask τ) Iff.rfl ?_ ?_ ?_ ?_ ?_ ?_
        · rfl
        · rfl
        · rfl
        · show (∃ u, Function.update s.workers w .done u = .handling τ) ↔
              ∃ u, s.workers u = .handling τ
          exact exists_eq_update_iff (by simp) (by rw [hw]; simp)
        · show (∃ u, Function.update s.workers w .done u = .working τ) ↔
              ∃ u, s.workers u = .working τ
          exact exists_eq_update_iff (by simp) (by rw [hw]; simp)
        · show (∃ u, Function.update s.workers w .done u = .finishing τ) ↔
              ∃ u, s.workers u = .finishing τ
          exact exists_eq_update_iff (by simp) (by rw [hw]; simp)

lemma inv_init {n W : Nat} {E : Type} (wf : Fin n → Option E) :
    Inv wf (initPool n W E) := by
  refine ⟨List.nodup_finRange n, ?_, ?_, ?_⟩
  · rintro ⟨u, hu⟩
    exact absurd hu (by simp [initPool])
  · intro u u' τ h1 h2
    rcases h1 with h | h | h <;> exact absurd h (by simp [initPool])
  · intro t
    refine Or.inl ⟨List.mem_finRange t, rfl, rfl, ?_⟩
    intro u hh
    rcases hh with h | h | h <;> exact absurd h (by simp [initPool])

lemma inv_reachable {n W : Nat} {E : Type} {wf : Fin n → Option E} {s : Pool n W E}
    (h : Reachable wf s) : Inv wf s := by
  induction h with
  | refl => exact inv_init wf
  | tail _ hstep ih => exact inv_step ih hstep

/-- In every reachable state in which all workers have terminated, every task
is Completed, was run exactly once, and stores exactly the work function's
result for it. -/
lemma reachable_terminal_spec {n W : Nat} {E : Type} {wf : Fin n → Option E}
    {s : Pool n W E} (hW : 0 < W) (hr : Reachable wf s)
    (ht : ∀ u : Fin W, s.workers u = .done) :
    ∀ t : Fin n, s.status t = .Completed ∧ s.runs t = 1 ∧ s.taskErr t = wf t := by
  obtain ⟨hnd, hdone, hinj, htask⟩ := inv_reachable hr
  have hq : s.queue = [] := hdone ⟨⟨0, hW⟩, ht _⟩
  intro t
  have hnoh : ∀ u, ¬ HoldsW s.workers u t := by
    intro u hh
    rcases hh with h | h | h <;> rw [ht u] at h <;> simp at h
  rcases htask t with ⟨h1, _⟩ | ⟨_, _, _, u, hu⟩ | ⟨_, _, _, u, hu⟩ |
    ⟨_, _, _, _, u, hu⟩ | ⟨_, h2, h3, h4, _⟩
  · rw [hq] at h1
    simp at h1
  · exact absurd (Or.inl hu) (hnoh u)
  · exact absurd (Or.inr (Or.inl hu)) (hnoh u)
  · exact absurd (Or.inr (Or.inr hu)) (hnoh u)
  · exact ⟨h2, h3, h4⟩

/-- C2: for every task list and every worker count W of at least one, once
RunTasks returns (all workers have drained the closed queue and terminated),
every task of the list has been run by the work function exactly once and
re-reading its status yields Completed, never Open or Progressing. -/
theorem runTasks_all_completed {n W : Nat} {E : Type} (wf : Fin n → Option E)
    (s : Pool n W E) (hW : 1 ≤ W) (hr : Reachable wf s)
    (ht : ∀ u : Fin W, s.workers u = .done) :
    ∀ t : Fin n, s.status t = .Completed ∧ s.runs t = 1 := fun t =>
  ⟨(reachable_terminal_spec hW hr ht t).1, (reachable_terminal_spec hW hr ht t).2.1⟩

/-- C4: in every state of RunTasks reachable from the initial state, with any
worker count W of at least one, at most W tasks have status Progressing
simultaneously. -/
theorem runTasks_progressing_bound {n W : Nat} {E : Type} (wf : Fin n → Option E)
    (s : Pool n W E) (hW : 1 ≤ W) (hr : Reachable wf s) :
    (Finset.univ.filter fun t : Fin n => s.status t = .Progressing).card ≤ W := by
  obtain ⟨hnd, hdone, hinj, htask⟩ := inv_reachable hr
  have hheld : ∀ t : Fin n, s.status t = .Progressing → ∃ u, HoldsW s.workers u t := by
    intro t hp
    rcases htask t with ⟨_, h, _⟩ | ⟨_, h, _⟩ | ⟨_, _, _, u, hu⟩ |
      ⟨_, _, _, _, u, hu⟩ | ⟨_, h, _⟩
    · rw [hp] at h; simp at h
    · rw [hp] at h; simp at h
    · exact ⟨u, Or.inr (Or.inl hu)⟩
    · exact ⟨u, Or.inr (Or.inr hu)⟩
    · rw [hp] at h; simp at h
  classical
  calc (Finset.univ.filter fun t : Fin n => s.status t = .Progressing).card
      ≤ (Finset.univ : Finset (Fin W)).card := by
        apply Finset.card_le_card_of_injOn
          (fun t => if h : ∃ u, HoldsW s.workers u t then h.choose else ⟨0, hW⟩)
        · intro a _
          exact Finset.mem_univ _
        · intro t1 ht1 t2 ht2 heq
          simp only [Finset.coe_filter, Set.mem_setOf_eq, Finset.mem_univ, true_and]
            at ht1 ht2
          have e1 := hheld t1 ht1
          have e2 := hheld t2 ht2
          have heq' : (if h : ∃ u, HoldsW s.workers u t1 then h.choose else ⟨0, hW⟩) =
              (if h : ∃ u, HoldsW s.workers u t2 then h.choose else ⟨0, hW⟩) := heq
          rw [dif_pos e1, dif_pos e2] at heq'
          have hu1 := e1.choose_spec
          have hu2 := e2.choose_spec
          rw [heq'] at hu1
          exact holdsW_unique_right hu1 hu2
    _ = W := Finset.card_fin W

/-- C5: in any terminated run of RunTasks, a task whose work function failed
has that error stored, is nonetheless Completed, ran exactly once, and every
other task also reaches Completed with exactly one invocation. -/
theorem runTasks_error_isolation {n W : Nat} {E : Type} (wf : Fin n → Option E)
    (s : Pool n W E) (t : Fin n) (e : E) (hW : 1 ≤ W) (hr : Reachable wf s)
    (ht : ∀ u : Fin W, s.workers u = .done) (he : wf t = some e) :
    s.taskErr t = some e ∧ s.status t = .Completed ∧ s.runs t = 1 ∧
      ∀ t' : Fin n, s.status t' = .Completed ∧ s.runs t' = 1 := by
  obtain ⟨h1, h2, h3⟩ := reachable_terminal_spec hW hr ht t
  refine ⟨by rw [h3, he], h1, h2, fun t' => ?_⟩
  obtain ⟨g1, g2, _⟩ := reachable_terminal_spec hW hr ht t'
  exact ⟨g1, g2⟩

/-! A concrete execution of RunTasks: two tasks, one worker, the work
function failing on task 0 and succeeding on task 1. -/

/-- Concrete work function: task 0 fails with error 7, task 1 succeeds. -/
def exWf : Fin 2 → Option Nat := fun t => if t = 0 then some 7 else none

def ts0 : Pool 2 1 Nat := initPool 2 1 Nat

def ts1 : Pool 2 1 Nat :=
  { ts0 with queue := [1], workers := Function.update ts0.workers 0 (.handling 0) }

def ts2 : Pool 2 1 Nat :=
  { ts1 with workers := Function.update ts1.workers 0 (.working 0),
             status := Function.update ts1.status 0 .Progressing }

def ts3 : Pool 2 1 Nat :=
  { ts2 with workers := Function.update ts2.workers 0 (.finishing 0),
             taskErr := Function.update ts2.taskErr 0 (exWf 0),
             runs := Function.update ts2.runs 0 (ts2.runs 0 + 1) }

def ts4 : Pool 2 1 Nat :=
  { ts3 with workers := Function.update ts3.workers 0 .idle,
             status := Function.update ts3.status 0 .Completed }

def ts5 : Pool 2 1 Nat :=
  { ts4 with queue := [], workers := Function.update ts4.workers 0 (.handling 1) }

def ts6 : Pool 2 1 Nat :=
  { ts5 with workers := Function.update ts5.workers 0 (.working 1),
             status := Function.update ts5.status 1 .Progressing }

def ts7 : Pool 2 1 Nat :=
  { ts6 with workers := Function.update ts6.workers 0 (.finishing 1),
             taskErr := Function.update ts6.taskErr 1 (exWf 1),
             runs := Function.update ts6.runs 1 (ts6.runs 1 + 1) }

def ts8 : Pool 2 1 Nat :=
  { ts7 with workers := Function.update ts7.workers 0 .idle,
             status := Function.update ts7.status 1 .Completed }

def ts9 : Pool 2 1 Nat := { ts8 with workers := Function.update ts8.workers 0 .done }

lemma reach_ts2 : Reachable exWf ts2 :=
  Relation.ReflTransGen.head (Step.dequeue ts0 0 0 [1] (by decide) (by decide))
    (Relation.ReflTransGen.head (Step.start ts1 0 0 (by decide))
      Relation.ReflTransGen.refl)

lemma reach_ts9 : Reachable exWf ts9 :=
  Relation.ReflTransGen.trans reach_ts2
    (Relation.ReflTransGen.head (Step.run ts2 0 0 (by decide))
      (Relation.ReflTransGen.head (Step.finish ts3 0 0 (by decide))
        (Relation.ReflTransGen.head (Step.dequeue ts4 0 1 [] (by decide) (by decide))
          (Relation.ReflTransGen.head (Step.start ts5 0 1 (by decide))
            (Relation.ReflTransGen.head (Step.run ts6 0 1 (by decide))
              (Relation.ReflTransGen.head (Step.finish ts7 0 1 (by decide))
                (Relation.ReflTransGen.head (Step.exit ts8 0 (by decide) (by decide))
                  Relation.ReflTransGen.refl)))))))

/-- Witness for C2: in the concrete two-task one-worker run, the terminal
state has both tasks Completed and run exactly once. -/
theorem runTasks_all_completed_witness :
    (∀ u : Fin 1, ts9.workers u = .done) ∧
      ∀ t : Fin 2, ts9.status t = .Completed ∧ ts9.runs t = 1 :=
  ⟨by decide, runTasks_all_completed exWf ts9 (by decide) reach_ts9 (by decide)⟩

/-- Witness for C4: in a concrete mid-run state of the two-task one-worker
execution, at most one task is Progressing. -/
theorem runTasks_progressing_bound_witness :
    (Finset.univ.filter fun t : Fin 2 => ts2.status t = .Progressing).card ≤ 1 :=
  runTasks_progressing_bound exWf ts2 (by decide) reach_ts2

/-- Witness for C5: in the concrete run where task 0's work fails with error
7, the terminal state stores the error on task 0, marks it Completed after
exactly one invocation, and task 1 also completes with one invocation. -/
theorem runTasks_error_isolation_witness :
    ts9.taskErr 0 = some 7 ∧ ts9.status 0 = .Completed ∧ ts9.runs 0 = 1 ∧
      ∀ t' : Fin 2, ts9.status t' = .Completed ∧ ts9.runs t' = 1 :=
  runTasks_error_isolation exWf ts9 0 7 (by decide) reach_ts9 (by decide) (by decide)

/-!
The Remote Tree Walker: GetActiveGitlabProjects and listProjectsRecursively
(src/pkg/gitlab/gitlab.go lines 33-88 and 105-132).

listProjectsRecursively issues, per group node, one request listing the
node's direct projects and one listing its direct subgroups (two concurrent
goroutines), recurses into every returned subgroup, sends every listed
project on a result channel and every request error on an error channel.  A
failed project listing contributes one error and no projects for that node;
a failed subgroup listing contributes one error and no recursion below that
node; either failure leaves all other requests untouched.  We embed the
remote tree together with injected request failures as a tree of nodes and
the two channels as the lists of everything sent; channel interleaving is
unordered, and the claims only use lengths and membership.
-/

/-- A raw project as returned by the project-listing request, with the
fields GetActiveGitlabProjects reads (PathWithNamespace, DefaultBranch,
SSHURLToRepo, Archived, SharedWithGroups). -/
structure RawProject where
  pathWithNamespace : String
  defaultBranch : String
  sshUrlToRepo : String
  archived : Bool
  sharedWithGroups : List String
deriving DecidableEq, Repr

/-- A remote group node: its full path, what its project listing would
return, failure-injection flags for its two list requests, and its
subgroups. -/
inductive GroupTree where
  | node (fullPath : String) (projects : List RawProject)
      (projectsFail : Bool) (subgroupsFail : Bool) (subs : List GroupTree)

/-- Everything listProjectsRecursively sends on the result channel. -/
def walkProjects : GroupTree → List RawProject
  | .node _ ps pf sf subs =>
      (if pf then [] else ps) ++
      (if sf then [] else (subs.attach.map fun c => walkProjects c.1).flatten)
termination_by t => sizeOf t
decreasing_by
  have := List.sizeOf_lt_of_mem c.2
  simp_wf
  omega

/-- Everything listProjectsRecursively sends on the error channel, each
error tagged with the failing node's full path and which of its two requests
failed (true for the project listing, false for the subgroup listing). -/
def walkErrors : GroupTree → List (String × Bool)
  | .node fp _ pf sf subs =>
      (if pf then [(fp, true)] else []) ++
      (if sf then [(fp, false)]
       else (subs.attach.map fun c => walkErrors c.1).flatten)
termination_by t => sizeOf t
decreasing_by
  have := List.sizeOf_lt_of_mem c.2
  simp_wf
  omega

/-- Number of injected request failures in the tree. -/
def countFails : GroupTree → Nat
  | .node _ _ pf sf subs =>
      (if pf then 1 else 0) + (if sf then 1 else 0) +
        (subs.attach.map fun c => countFails c.1).sum
termination_by t => sizeOf t
decreasing_by
  have := List.sizeOf_lt_of_mem c.2
  simp_wf
  omega

/-- All projects of the tree, failures ignored. -/
def allProjects : GroupTree → List RawProject
  | .node _ ps _ _ subs =>
      ps ++ (subs.attach.map fun c => allProjects c.1).flatten
termination_by t => sizeOf t
decreasing_by
  have := List.sizeOf_lt_of_mem c.2
  simp_wf
  omega

theorem GroupTree.nodeInduction {P : GroupTree → Prop}
    (node : ∀ fp ps pf sf subs, (∀ c ∈ subs, P c) → P (.node fp ps pf sf subs)) :
    ∀ t, P t
  | .node fp ps pf sf subs =>
      node fp ps pf sf subs fun c hc => GroupTree.nodeInduction node c
termination_by t => sizeOf t
decreasing_by
  have := List.sizeOf_lt_of_mem hc
  simp_wf
  omega

lemma walkProjects_node (fp : String) (ps : List RawProject) (pf sf : Bool)
    (subs : List GroupTree) :
    walkProjects (.node fp ps pf sf subs) =
      (if pf then [] else ps) ++
        (if sf then [] else (subs.map walkProjects).flatten) := by
  rw [walkProjects]
  rw [List.attach_map_val]

lemma walkErrors_node (fp : String) (ps : List RawProject) (pf sf : Bool)
    (subs : List GroupTree) :
    walkErrors (.node fp ps pf sf subs) =
      (if pf then [(fp, true)] else []) ++
        (if sf then [(fp, false)] else (subs.map walkErrors).flatten) := by
  rw [walkErrors]
  rw [List.attach_map_val]

lemma countFails_node (fp : String) (ps : List RawProject) (pf sf : Bool)
    (subs : List GroupTree) :
    countFails (.node fp ps pf sf subs) =
      (if pf then 1 else 0) + (if sf then 1 else 0) +
        (subs.map countFails).sum := by
  rw [countFails]
  rw [List.attach_map_val]

lemma allProjects_node (fp : String) (ps : List RawProject) (pf sf : Bool)
    (subs : List GroupTree) :
    allProjects (.node fp ps pf sf subs) =
      ps ++ (subs.map allProjects).flatten := by
  rw [allProjects]
  rw [List.attach_map_val]

/-- With at most one injected failure, the error channel records exactly one
error per failed request.  (A failure below a node whose subgroup listing
itself failed would never be exercised, so the bound is needed.) -/
lemma walkErrors_length_of_le (t : GroupTree) (h : countFails t ≤ 1) :
    (walkErrors t).length = countFails t := by
  induction t using GroupTree.nodeInduction with
  | node fp ps pf sf subs ih =>
      have hchild : ∀ c ∈ subs, countFails c ≤ (subs.map countFails).sum := fun c hc =>
        List.single_le_sum (fun x _ => Nat.zero_le x) _ (List.mem_map_of_mem _ hc)
      rw [countFails_node] at h ⊢
      rw [walkErrors_node]
      cases pf <;> cases sf <;>
        simp only [eq_self_iff_true, if_true, Bool.false_eq_true, if_false,
          List.nil_append, List.singleton_append, List.length_cons, List.length_nil,
          List.length_flatten, List.map_map, Function.comp_def, Nat.zero_add,
          Nat.add_zero] at h ⊢
      · -- both requests of the root succeed
        refine congrArg List.sum (List.map_congr_left fun c hc => ?_)
        exact ih c hc (le_trans (hchild c hc) h)
      · -- the subgroup listing of the root fails
        omega
      · -- the project listing of the root fails
        have hsum : (subs.map countFails).sum = 0 := by omega
        have hmap : subs.map (fun c => (walkErrors c).length) = subs.map countFails :=
          List.map_congr_left fun c hc =>
            ih c hc (le_trans (hchild c hc) (by omega))
        rw [hmap]
        omega
      · -- both requests of the root fail: impossible with at most one failure
        omega

/-- With no injected failure the walker returns every project of the tree. -/
lemma walkProjects_eq_allProjects (t : GroupTree) (h : countFails t = 0) :
    walkProjects t = allProjects t := by
  induction t using GroupTree.nodeInduction with
  | node fp ps pf sf subs ih =>
      rw [countFails_node] at h
      cases pf
      · cases sf
        · have hsubs : ∀ c ∈ subs, countFails c = 0 := by
            simp only [if_neg, Nat.add_eq_zero, List.sum_eq_zero_iff, List.mem_map] at h
            intro c hc
            exact h.2 _ ⟨c, hc, rfl⟩
          rw [walkProjects_node, allProjects_node]
          simp only [if_neg, Bool.false_eq_true, if_false, List.append_cancel_left_eq]
          exact congrArg List.flatten (List.map_congr_left fun c hc => ih c hc (hsubs c hc))
        · simp at h
      · simp at h

/-- Subtree s of t reachable from the root through nodes whose subgroup
listing succeeds: the walker's recursion actually descends to s. -/
inductive GoodSub : GroupTree → GroupTree → Prop where
  | refl (t : GroupTree) : GoodSub t t
  | step (s c : GroupTree) (fp : String) (ps : List RawProject) (pf : Bool)
      (subs : List GroupTree) (hc : c ∈ subs) (hs : GoodSub s c) :
      GoodSub s (.node fp ps pf false subs)

/-- Every project of a failure-free subtree that the recursion reaches is in
the walker's result. -/
lemma goodSub_walkProjects_subset {s t : GroupTree} (hgs : GoodSub s t)
    (h0 : countFails s = 0) : ∀ p ∈ allProjects s, p ∈ walkProjects t := by
  induction hgs with
  | refl =>
      intro p hp
      rw [walkProjects_eq_allProjects s h0]
      exact hp
  | step c fp ps pf subs hc hs ih =>
      intro p hp
      have hpc : p ∈ walkProjects c := ih p hp
      rw [walkProjects_node]
      refine List.mem_append_right _ ?_
      simp only [Bool.false_eq_true, if_false]
      exact List.mem_flatten.mpr ⟨walkProjects c, List.mem_map_of_mem _ hc, hpc⟩

/-- C6: if exactly one request of one node of the remote tree fails, the
walker records exactly one error, and every project of every failure-free
subtree that the recursion reaches (in particular every sibling subtree of
the failing node) is still in the returned project list. -/
theorem walker_single_failure (t : GroupTree) (h1 : countFails t = 1) :
    (walkErrors t).length = 1 ∧
      ∀ s, GoodSub s t → countFails s = 0 → ∀ p ∈ allProjects s, p ∈ walkProjects t :=
  ⟨by rw [walkErrors_length_of_le t (le_of_eq h1)]; exact h1,
   fun s hs h0 => goodSub_walkProjects_subset hs h0⟩

/-- Concrete remote tree: root g with subgroup g/a whose project listing
fails and subgroup g/b which is failure-free. -/
def rawA : RawProject := ⟨"g/a/p", "main", "u1", false, []⟩

def rawB : RawProject := ⟨"g/b/p", "main", "u2", false, []⟩

def failTreeA : GroupTree := .node "g/a" [rawA] true false []

def failTreeB : GroupTree := .node "g/b" [rawB] false false []

def failTree : GroupTree := .node "g" [] false false [failTreeA, failTreeB]

/-- Witness for C6: with the single injected failure at g/a, the walker
reports exactly one error and still returns the project of the sibling
subtree g/b. -/
theorem walker_single_failure_witness :
    (walkErrors failTree).length = 1 ∧ rawB ∈ walkProjects failTree :=
  ⟨(walker_single_failure failTree
      (by simp [failTree, failTreeA, failTreeB, countFails_node])).1,
   (walker_single_failure failTree
      (by simp [failTree, failTreeA, failTreeB, countFails_node])).2 failTreeB
     (GoodSub.step failTreeB failTreeB "g" [] false [failTreeA, failTreeB]
       (List.mem_cons_of_mem failTreeA (List.mem_cons_self failTreeB []))
       (GoodSub.refl failTreeB))
     (by simp [failTreeB, countFails_node]) rawB
     (by simp [failTreeB, allProjects_node])⟩

/-! Filtering and path stripping in GetActiveGitlabProjects
(src/pkg/gitlab/gitlab.go lines 64-76). -/

/-- Model of Go strings.TrimPrefix: drop the prefix when present, otherwise
return the string unchanged. -/
def trimPre (s pre : String) : String :=
  if pre.data.isPrefixOf s.data then { data := s.data.drop pre.data.length } else s

lemma trimPre_append (a b : String) : trimPre (a ++ b) a = b := by
  unfold trimPre
  rw [if_pos]
  · show String.mk ((a ++ b).data.drop a.data.length) = b
    rw [String.data_append, List.drop_left]
  · rw [String.data_append]
    exact List.isPrefixOf_iff_prefix.mpr (List.prefix_append _ _)

lemma trimPre_self_slash (a : String) : trimPre a (a ++ "/") = a := by
  unfold trimPre
  rw [if_neg]
  intro hcond
  have hpre := List.isPrefixOf_iff_prefix.mp hcond
  have hlen := hpre.length_le
  rw [String.data_append, List.length_append] at hlen
  simp at hlen

/-- Conversion of a raw project into the walker's output record: the logical
path is PathWithNamespace with the root group path plus separator stripped
(src/pkg/gitlab/gitlab.go line 70). -/
def toProject (groupPath : String) (p : RawProject) : GitlabProject :=
  ⟨trimPre p.pathWithNamespace (groupPath ++ "/"), p.defaultBranch, p.sshUrlToRepo⟩

/-- GetActiveGitlabProjects's consumer loop (src/pkg/gitlab/gitlab.go lines
64-76): keep a listed project iff it is not archived and its shared-with
list is empty, and convert it. -/
def activeProjects (groupPath : String) (t : GroupTree) : List GitlabProject :=
  ((walkProjects t).filter fun p => !p.archived && p.sharedWithGroups.isEmpty).map
    (toProject groupPath)

/-- C7: a discovered project is in the result iff it is neither archived nor
shared into the group, and the logical path of an included project is its
full namespace path with the root group path and following separator
stripped. -/
theorem activeProjects_spec (groupPath : String) (t : GroupTree) :
    (∀ q, q ∈ activeProjects groupPath t ↔
        ∃ p ∈ walkProjects t, p.archived = false ∧ p.sharedWithGroups = [] ∧
          q = toProject groupPath p) ∧
    ∀ p : RawProject, ∀ rest : String,
      p.pathWithNamespace = groupPath ++ "/" ++ rest →
      (toProject groupPath p).path = rest := by
  constructor
  · intro q
    simp only [activeProjects, List.mem_map, List.mem_filter, Bool.and_eq_true,
      Bool.not_eq_true', List.isEmpty_iff]
    constructor
    · rintro ⟨p, ⟨hmem, h1, h2⟩, rfl⟩
      exact ⟨p, hmem, h1, h2, rfl⟩
    · rintro ⟨p, hmem, h1, h2, rfl⟩
      exact ⟨p, ⟨hmem, h1, h2⟩, rfl⟩
  · intro p rest h
    show trimPre p.pathWithNamespace (groupPath ++ "/") = rest
    rw [h]
    exact trimPre_append _ _

/-- Concrete raw projects: one clean, one archived, one shared. -/
def rawClean : RawProject := ⟨"g/a", "main", "s1", false, []⟩

def rawArch : RawProject := ⟨"g/b", "main", "s2", true, []⟩

def rawShared : RawProject := ⟨"g/c", "main", "s3", false, ["other"]⟩

def mixTree : GroupTree := .node "g" [rawClean, rawArch, rawShared] false false []

/-- Witness for C7: the clean project is kept and its path is stripped to
the part below the root group. -/
theorem activeProjects_spec_witness :
    toProject "g" rawClean ∈ activeProjects "g" mixTree ∧
      (toProject "g" rawClean).path = "a" :=
  ⟨((activeProjects_spec "g" mixTree).1 _).mpr
      ⟨rawClean, by simp [mixTree, walkProjects_node], rfl, rfl, rfl⟩,
   (activeProjects_spec "g" mixTree).2 rawClean "a" rfl⟩

/-!
The Local Tree Scanner: GetLocalProjects (src/pkg/git/git.go lines 18-49).

filepath.WalkDir visits the scan root and then each directory in order.  For
a directory, git.PlainOpen either fails (not a working copy: traverse the
children transparently, no error), or succeeds, in which case repo.Head()
either yields the checked-out branch (emit one Project whose Path is the
directory path with the scan root plus separator trimmed, and skip the whole
subtree via filepath.SkipDir) or fails (that error aborts the entire walk).
Files are skipped and are not modelled.  We embed a directory as its name,
what opening it as a working copy yields, and its child directories in walk
order; the scan returns the collected projects and whether the walk aborted
with an error.
-/

/-- What opening a directory as a working copy yields: not a repository
(git.PlainOpen fails), a repository with a readable HEAD branch, or a
repository whose HEAD read fails. -/
inductive RepoState where
  | notRepo
  | repo (branch : String)
  | headErr
deriving DecidableEq, Repr

/-- A directory of the local tree. -/
inductive FsDir where
  | dir (name : String) (st : RepoState) (children : List FsDir)

def FsDir.name : FsDir → String
  | .dir n _ _ => n

mutual

/-- Visit one directory at absolute path p (the WalkDir callback body). -/
def scanVisit (root p : String) (d : FsDir) : List LocalProject × Bool :=
  match d with
  | .dir _ st children =>
    match st with
    | .repo b => ([⟨trimPre p (root ++ "/"), b⟩], false)
    | .headErr => ([], true)
    | .notRepo => scanChildren root p children
termination_by sizeOf d

/-- Visit the children of a directory at absolute path p in order, stopping
at the first aborting error. -/
def scanChildren (root p : String) (cs : List FsDir) : List LocalProject × Bool :=
  match cs with
  | [] => ([], false)
  | c :: rest =>
      let r := scanVisit root (p ++ "/" ++ c.name) c
      if r.2 then r
      else
        let r' := scanChildren root p rest
        (r.1 ++ r'.1, r'.2)
termination_by sizeOf cs

end

/-- GetLocalProjects: walk the scan root itself. -/
def getLocalProjects (root : String) (t : FsDir) : List LocalProject × Bool :=
  scanVisit root root t

mutual

/-- No directory of the tree has a failing HEAD read. -/
def noHeadErr : FsDir → Bool
  | .dir _ st cs => (!(st == .headErr)) && noHeadErrList cs
termination_by d => sizeOf d

def noHeadErrList : List FsDir → Bool
  | [] => true
  | c :: rest => noHeadErr c && noHeadErrList rest
termination_by cs => sizeOf cs

end

mutual

/-- Specification-side recursion: the projects of the shallowest working-copy
roots below a directory whose relative path is rel, at paths relative to the
scan root. -/
def reposRel (rel : String) : FsDir → List LocalProject
  | .dir _ (.repo b) _ => [⟨rel, b⟩]
  | .dir _ .notRepo cs => reposRelList rel cs
  | .dir _ .headErr cs => reposRelList rel cs
termination_by d => sizeOf d

def reposRelList (rel : String) : List FsDir → List LocalProject
  | [] => []
  | c :: rest => reposRel (rel ++ "/" ++ c.name) c ++ reposRelList rel rest
termination_by cs => sizeOf cs

end

/-- Specification-side projects of a whole scan's children, relative paths
starting at the child names. -/
def specScanList : List FsDir → List LocalProject
  | [] => []
  | c :: rest => reposRel c.name c ++ specScanList rest

/-- Specification-side result of a whole scan: if the scan root itself is a
working copy, one project carrying the scan root's own full path (the prefix
strip does not apply to the root); otherwise the repositories of the
children at their relative paths. -/
def specScan (root : String) : FsDir → List LocalProject
  | .dir _ (.repo b) _ => [⟨root, b⟩]
  | .dir _ .notRepo cs => specScanList cs
  | .dir _ .headErr cs => specScanList cs

theorem FsDir.dirInduction {P : FsDir → Prop}
    (dir : ∀ n st cs, (∀ c ∈ cs, P c) → P (.dir n st cs)) :
    ∀ t, P t
  | .dir n st cs => dir n st cs fun c hc => FsDir.dirInduction dir c
termination_by t => sizeOf t
decreasing_by
  have := List.sizeOf_lt_of_mem hc
  simp_wf
  omega

lemma noHeadErrList_iff (cs : List FsDir) :
    noHeadErrList cs = true ↔ ∀ c ∈ cs, noHeadErr c = true := by
  induction cs with
  | nil => simp [noHeadErrList]
  | cons c rest ih => simp [noHeadErrList, Bool.and_eq_true, ih]

lemma noHeadErr_dir_iff (n : String) (st : RepoState) (cs : List FsDir) :
    noHeadErr (.dir n st cs) = true ↔
      (st ≠ .headErr ∧ ∀ c ∈ cs, noHeadErr c = true) := by
  rw [noHeadErr]
  simp [Bool.and_eq_true, noHeadErrList_iff]

/-- The visit of a directory at relative path rel below the scan root emits
exactly the specification-side repositories, with the root-plus-separator
prefix stripped back to the relative path, and no error. -/
lemma scanVisit_rel (root : String) : ∀ d : FsDir, noHeadErr d = true →
    ∀ rel, scanVisit root (root ++ "/" ++ rel) d = (reposRel rel d, false) := by
  intro d
  induction d using FsDir.dirInduction with
  | dir n st cs ih =>
      intro h rel
      rw [noHeadErr_dir_iff] at h
      cases st with
      | repo b => simp only [scanVisit, reposRel, trimPre_append]
      | headErr => exact absurd rfl h.1
      | notRepo =>
          simp only [scanVisit, reposRel]
          have hlist : ∀ l : List FsDir, (∀ c ∈ l, noHeadErr c = true) →
              (∀ c ∈ l, noHeadErr c = true → ∀ r',
                scanVisit root (root ++ "/" ++ r') c = (reposRel r' c, false)) →
              scanChildren root (root ++ "/" ++ rel) l = (reposRelList rel l, false) := by
            intro l
            induction l with
            | nil =>
                intro _ _
                simp [scanChildren, reposRelList]
            | cons c rest ihl =>
                intro hok hrec
                have hpath : root ++ "/" ++ rel ++ "/" ++ c.name =
                    root ++ "/" ++ (rel ++ "/" ++ c.name) := by
                  simp [String.append_assoc]
                have hc : scanVisit root (root ++ "/" ++ rel ++ "/" ++ c.name) c =
                    (reposRel (rel ++ "/" ++ c.name) c, false) := by
                  rw [hpath]
                  exact hrec c (List.mem_cons_self c rest)
                    (hok c (List.mem_cons_self c rest)) (rel ++ "/" ++ c.name)
                simp only [scanChildren]
                rw [hc, ihl (fun x hx => hok x (List.mem_cons_of_mem c hx))
                  (fun x hx => hrec x (List.mem_cons_of_mem c hx))]
                simp [reposRelList]
          exact hlist cs h.2 fun c hc hok' r' => ih c hc hok' r'

/-- The scan of the root's children matches the specification-side result. -/
lemma scanChildren_top (root : String) (l : List FsDir)
    (hok : ∀ c ∈ l, noHeadErr c = true) :
    scanChildren root root l = (specScanList l, false) := by
  induction l with
  | nil => simp [scanChildren, specScanList]
  | cons c rest ihl =>
      have hc : scanVisit root (root ++ "/" ++ c.name) c = (reposRel c.name c, false) :=
        scanVisit_rel root c (hok c (List.mem_cons_self c rest)) c.name
      simp only [scanChildren]
      rw [hc, ihl fun x hx => hok x (List.mem_cons_of_mem c hx)]
      simp [specScanList]

/-- C8 (amended): on any tree without HEAD-read failures the scan returns no
error and exactly the specification-side projects: one project per
shallowest working-copy root, none of whose subdirectories are visited;
directories that fail to open as working copies are traversed transparently;
the logical path of a repository found in a strict subdirectory is its path
relative to the scan root; and if the scan root itself is a working copy,
the single emitted project carries the scan root's own full path, since the
root-plus-separator prefix strip does not apply to the root. -/
theorem localScan_spec (root : String) (t : FsDir) (h : noHeadErr t = true) :
    getLocalProjects root t = (specScan root t, false) := by
  cases t with
  | dir n st cs =>
      rw [noHeadErr_dir_iff] at h
      cases st with
      | repo b =>
          show scanVisit root root (.dir n (.repo b) cs) = _
          simp only [scanVisit, specScan, trimPre_self_slash]
      | headErr => exact absurd rfl h.1
      | notRepo =>
          show scanVisit root root (.dir n .notRepo cs) = _
          simp only [scanVisit, specScan]
          exact scanChildren_top root cs h.2

/-- The scan root itself being a working copy. -/
def rootRepoDir : FsDir := .dir "r" (.repo "main") []

/-- Counterexample for C8 as stated: scanning a root that is itself a
working copy emits one project whose logical path is the full scan root
"/r", not a path relative to the scan root (which would be empty), because
strings.TrimPrefix leaves the root path unchanged. -/
theorem localScan_root_counterexample :
    getLocalProjects "/r" rootRepoDir = ([⟨"/r", "main"⟩], false) ∧
      ("/r" : String) ≠ "" := by
  constructor
  · show scanVisit "/r" "/r" (.dir "r" (.repo "main") []) = _
    simp only [scanVisit, trimPre_self_slash]
  · decide

/-- A concrete local tree: a repository at a (with a nested directory that
must not be visited), and a plain directory b containing a repository c. -/
def exFs : FsDir :=
  .dir "root" .notRepo
    [.dir "a" (.repo "main") [.dir "sub" (.repo "dev") []],
     .dir "b" .notRepo [.dir "c" (.repo "dev") []]]

/-- Witness for C8 (amended): the concrete scan stops at the repository a
(not descending to a/sub), traverses the non-repository b, and emits
relative paths a and b/c with no error. -/
theorem localScan_spec_witness :
    noHeadErr exFs = true ∧
      getLocalProjects "/r" exFs = ([⟨"a", "main"⟩, ⟨"b/c", "dev"⟩], false) := by
  have h : noHeadErr exFs = true := by
    simp [exFs, noHeadErr, noHeadErrList]
  refine ⟨h, ?_⟩
  rw [localScan_spec "/r" exFs h]
  simp only [exFs, specScan, specScanList, reposRel, reposRelList, FsDir.name]
  simp

/-!
The failure report and exit status of main (src/cmd/main.go lines 150-155):
after executeTasks returns, main prints one line per task whose stored error
is non-nil, in the form "Failed to <action> <path> <error>", and then simply
returns; there is no os.Exit call after task execution anywhere in the
repository, so the process exit status is 0 whether or not tasks failed.
-/

/-- A task as seen by main's report loop: its path, action and the error
stored by the worker pool. -/
structure MainTask where
  path : String
  action : Action
  error : Option String
deriving DecidableEq, Repr

/-- The failure report main prints: one (action, path, error) triple per
task whose error field is non-nil. -/
def failureReport (ts : List MainTask) : List (Action × String × String) :=
  ts.filterMap fun t => t.error.map fun e => (t.action, t.path, e)

/-- The process exit status after the report loop: main returns normally
(src/cmd/main.go line 155 ends the function with no os.Exit on that path),
so the Go runtime exits with status 0 regardless of task errors. -/
def mainExitCode (ts : List MainTask) : Nat :=
  let _ := ts
  0

/-- Counterexample for C9 as stated: a run with a failing task produces a
non-empty failure report, yet the exit status is 0, not non-zero. -/
theorem mainExit_counterexample :
    failureReport [⟨"p", .Delete, some "boom"⟩] ≠ [] ∧
      mainExitCode [⟨"p", .Delete, some "boom"⟩] = 0 := by
  constructor
  · decide
  · rfl

/-- C9 (amended): after the pool drains, every task with a non-nil error
appears in the report as its (action, path, error) triple, every reported
triple comes from such a task, and the process exit status is 0 regardless
of task errors, because main returns normally without calling os.Exit. -/
theorem failureReport_spec (ts : List MainTask) :
    (∀ t ∈ ts, ∀ e, t.error = some e → (t.action, t.path, e) ∈ failureReport ts) ∧
    (∀ r ∈ failureReport ts, ∃ t ∈ ts,
      t.error = some r.2.2 ∧ r.1 = t.action ∧ r.2.1 = t.path) ∧
    mainExitCode ts = 0 := by
  refine ⟨?_, ?_, rfl⟩
  · intro t ht e he
    exact List.mem_filterMap.mpr ⟨t, ht, by rw [he]; rfl⟩
  · intro r hr
    obtain ⟨t, ht, hmap⟩ := List.mem_filterMap.mp hr
    cases he : t.error with
    | none =>
        rw [he] at hmap
        simp at hmap
    | some e =>
        rw [he] at hmap
        obtain rfl : (t.action, t.path, e) = r := by simpa using hmap
        exact ⟨t, ht, he, rfl, rfl⟩

/-- Two concrete tasks after a run: one failed, one succeeded. -/
def exMainTasks : List MainTask := [⟨"p", .Delete, some "boom"⟩, ⟨"q", .Pull, none⟩]

/-- Witness for C9 (amended): the failing task is reported with its action,
path and error, and the exit status is 0. -/
theorem failureReport_spec_witness :
    (Action.Delete, "p", "boom") ∈ failureReport exMainTasks ∧
      mainExitCode exMainTasks = 0 :=
  ⟨(failureReport_spec exMainTasks).1 ⟨"p", .Delete, some "boom"⟩
      (List.mem_cons_self _ _) "boom" rfl,
   (failureReport_spec exMainTasks).2.2⟩

/-!
DeleteProject (src/pkg/git/git.go lines 51-58): open the path as a working
copy with git.PlainOpen; on failure return that error without touching the
filesystem; on success remove the directory tree with os.RemoveAll.  The
filesystem is a list of directory entries, each knowing whether PlainOpen
succeeds on it (go-git's failure value is ErrRepositoryNotExists,
"repository does not exist").
-/

/-- A directory of the local filesystem: its path and whether it is the root
of a git working copy (whether git.PlainOpen succeeds on it). -/
structure FsEntry where
  path : String
  isRepoRoot : Bool
deriving DecidableEq, Repr

/-- os.RemoveAll: delete the path and everything below it. -/
def removeAll (fs : List FsEntry) (p : String) : List FsEntry :=
  fs.filter fun e => !(e.path == p || (p ++ "/").data.isPrefixOf e.path.data)

/-- DeleteProject: PlainOpen, then RemoveAll only on success. -/
def DeleteProject (fs : List FsEntry) (p : String) : List FsEntry × Option String :=
  if fs.any fun e => e.path == p && e.isRepoRoot then (removeAll fs p, none)
  else (fs, some "repository does not exist")

/-- C10: if the path cannot be opened as a working-copy root, DeleteProject
returns the open error and leaves the filesystem unchanged; the directory
tree is removed exactly when the path is a working-copy root. -/
theorem deleteProject_spec (fs : List FsEntry) (p : String) :
    (¬(∃ e ∈ fs, e.path = p ∧ e.isRepoRoot = true) →
      DeleteProject fs p = (fs, some "repository does not exist")) ∧
    ((∃ e ∈ fs, e.path = p ∧ e.isRepoRoot = true) →
      DeleteProject fs p = (removeAll fs p, none)) := by
  constructor
  · intro h
    rw [DeleteProject, if_neg]
    intro hc
    rw [List.any_eq_true] at hc
    obtain ⟨e, he, hcond⟩ := hc
    rw [Bool.and_eq_true, beq_iff_eq] at hcond
    exact h ⟨e, he, hcond.1, hcond.2⟩
  · rintro ⟨e, he, h1, h2⟩
    rw [DeleteProject, if_pos]
    rw [List.any_eq_true]
    exact ⟨e, he, by rw [Bool.and_eq_true, beq_iff_eq]; exact ⟨h1, h2⟩⟩

/-- A concrete filesystem: a repository at /r/a with content below it, and a
plain directory /r/b. -/
def exFsEntries : List FsEntry := [⟨"/r/a", true⟩, ⟨"/r/a/sub", false⟩, ⟨"/r/b", false⟩]

/-- Witness for C10: deleting the non-repository /r/b errors and changes
nothing; deleting the repository /r/a removes its subtree. -/
theorem deleteProject_spec_witness :
    DeleteProject exFsEntries "/r/b" = (exFsEntries, some "repository does not exist") ∧
      DeleteProject exFsEntries "/r/a" = (removeAll exFsEntries "/r/a", none) :=
  ⟨(deleteProject_spec exFsEntries "/r/b").1 (by decide),
   (deleteProject_spec exFsEntries "/r/a").2 (by decide)⟩

end Gls
